import Mathlib

/-!
Verification of the Splitter bill-splitting engine (`src/lib/calc.ts`).

The engine is shallowly embedded in Lean: JavaScript numbers are modelled as
exact rationals (`ℚ`), as the specification itself treats monetary values
("floating-point epsilon treated as exact equality at the cent level").
`Math.round` rounds half toward positive infinity, `Math.floor` is `Int.floor`.
A JavaScript `Record<UUID, number>` (a plain object with string keys) is
modelled as an association list in key-insertion order with unique keys, which
is how `Object.entries` / `Object.values` iterate it; `m[k] = v` keeps the
position of an existing key and appends a fresh key at the end.
`Array.prototype.sort(cmp)` is a stable sort, modelled by `List.insertionSort`
with the total preorder induced by the comparator.
-/

namespace Splitter

/-- JavaScript `Math.round` on exact rationals: nearest integer, halves toward
positive infinity. -/
def jsRound (x : ℚ) : ℤ := ⌊x + 1/2⌋

/-- `round2` from `calc.ts`: `Math.round(n * 100) / 100`. -/
def round2 (n : ℚ) : ℚ := (jsRound (n * 100) : ℚ) / 100

/-- `round4` from `calc.ts`: `Math.round(n * 10000) / 10000`. -/
def round4 (n : ℚ) : ℚ := (jsRound (n * 10000) : ℚ) / 10000

/-- `Item` from `types.ts`: id, display name, pre-tax price, consumer ids. -/
structure Item where
  id : String
  name : String
  price : ℚ
  consumerIds : List String
deriving DecidableEq

/-- `Person` from `types.ts`. -/
structure Person where
  id : String
  name : String
  isExternal : Bool := false
deriving DecidableEq

/-- `BillState` from `types.ts`. -/
structure BillState where
  people : List Person
  payerId : String
  items : List Item
  overallTax : ℚ
deriving DecidableEq

/-- `allocateItemTaxes` from `calc.ts`. -/
def allocateItemTaxes (items : List Item) (overallTax : ℚ) : List ℚ :=
  if items.length = 0 then []
  else
    let subtotal := (items.map (·.price)).sum
    if subtotal = 0 then items.map (fun _ => 0)
    else items.map (fun item => round4 (overallTax * (item.price / subtotal)))

/-- A JavaScript `Record<UUID, number>` as an insertion-ordered association
list with unique keys. -/
abbrev Rec := List (String × ℚ)

/-- Property lookup `m[k]`: `none` models `undefined`. -/
def recGet (m : Rec) (k : String) : Option ℚ :=
  (m.find? (fun p => p.1 == k)).map (·.2)

/-- Property assignment `m[k] = v`: an existing key keeps its position, a
fresh key is appended (JS object insertion order). -/
def recSet (m : Rec) (k : String) (v : ℚ) : Rec :=
  match m with
  | [] => [(k, v)]
  | (k', v') :: t => if k' = k then (k, v) :: t else (k', v') :: recSet t k v

/-- Stable sort in descending `key` order: the model of
`arr.sort((a, b) => key b - key a)` (JS sort is stable). -/
def sortDesc (key : α → ℚ) (l : List α) : List α :=
  List.insertionSort (fun a b => key b ≤ key a) l

/-- One entry of `pennyFix`'s `fractionalData`. -/
structure FracEntry where
  personId : String
  amount : ℚ
  rounded : ℚ
  fractional : ℚ
deriving DecidableEq

/-- `fractionalData` of `pennyFix`: each person's naive rounding and sub-cent
remainder `Math.abs(amount - Math.floor(amount * 100) / 100)`. -/
def fractionalData (m : Rec) : List FracEntry :=
  m.map (fun p => ⟨p.1, p.2, round2 p.2, |p.2 - (⌊p.2 * 100⌋ : ℚ) / 100|⟩)

/-- The signed number of pennies to move: `Math.round(discrepancy * 100)`
where `discrepancy = round2(grandTotal - sum of round2 amounts)`. -/
def penniesNeeded (m : Rec) (grandTotal : ℚ) : ℤ :=
  jsRound (round2 (grandTotal - (m.map (fun p => round2 p.2)).sum) * 100)

/-- `pennyAdjustment`: `+0.01` if pennies are owed, `-0.01` otherwise. -/
def pennyAdj (m : Rec) (grandTotal : ℚ) : ℚ :=
  if 0 < penniesNeeded m grandTotal then 1/100 else -(1/100)

/-- The ids of the `adjustmentCount` highest-fractional-remainder people:
the first `|penniesNeeded|` entries of `fractionalData` stably sorted in
descending `fractional` order (`take` caps at the list length, exactly as the
source's `Math.min(adjustmentCount, fractionalData.length)` loop bound). -/
def adjustedIds (m : Rec) (grandTotal : ℚ) : List String :=
  ((sortDesc (·.fractional) (fractionalData m)).take
    (penniesNeeded m grandTotal).natAbs).map (·.personId)

/-- `pennyFix` from `calc.ts`.  The source mutates a copy of the record:
the first `min(adjustmentCount, length)` sorted entries get
`round2(rounded + pennyAdjustment)` and the entries from index
`adjustmentCount` on get their naive `rounded` value.  For a record (unique
keys, iteration in insertion order) this is the per-key map below. -/
def pennyFix (m : Rec) (grandTotal : ℚ) : Rec :=
  let currentRoundedTotal := (m.map (fun p => round2 p.2)).sum
  let discrepancy := round2 (grandTotal - currentRoundedTotal)
  if |discrepancy| < 1/100 then
    m.map (fun p => (p.1, round2 p.2))
  else
    m.map (fun p => (p.1,
      if p.1 ∈ adjustedIds m grandTotal then
        round2 (round2 p.2 + pennyAdj m grandTotal)
      else round2 p.2))

/-- `PersonTotal` from `types.ts`; a breakdown entry is
(item id, item name, rounded share). -/
structure PersonTotal where
  id : String
  name : String
  total : ℚ
  items : List (String × String × ℚ)
deriving DecidableEq

/-- The result record of `computeTotals`. -/
structure Totals where
  perPersonUnrounded : Rec
  perPersonRounded : Rec
  subtotal : ℚ
  grandTotal : ℚ
  personTotals : List PersonTotal
deriving DecidableEq

/-- `personTotals.find(p => p.id === consumerId)` followed by pushing a
breakdown entry onto that person's `items`; no-op when the id is absent. -/
def addBreakdown (pts : List PersonTotal) (cid : String)
    (entry : String × String × ℚ) : List PersonTotal :=
  match pts with
  | [] => []
  | pt :: t =>
    if pt.id = cid then { pt with items := pt.items ++ [entry] } :: t
    else pt :: addBreakdown t cid entry

/-- Body of the inner `item.consumerIds.forEach` of `computeTotals`: add the
per-consumer share to the consumer's running 4-decimal total
(`perPersonUnrounded[consumerId] || 0` reads as 0 when absent) and append a
breakdown entry. -/
def stepConsumer (share : ℚ) (itemId itemName : String)
    (acc : Rec × List PersonTotal) (cid : String) : Rec × List PersonTotal :=
  (recSet acc.1 cid (round4 ((recGet acc.1 cid).getD 0 + share)),
   addBreakdown acc.2 cid (itemId, itemName, round2 share))

/-- Body of the outer `state.items.forEach` of `computeTotals`, one item
paired with its allocated tax.  `sharePerConsumer` divides by the consumer
count; with zero consumers the inner loop body never runs, so the division is
never observed (the source would produce an unused `Infinity`). -/
def stepItem (acc : Rec × List PersonTotal) (it : Item × ℚ) :
    Rec × List PersonTotal :=
  let itemTotal := it.1.price + it.2
  let sharePerConsumer := itemTotal / (it.1.consumerIds.length : ℚ)
  it.1.consumerIds.foldl (stepConsumer sharePerConsumer it.1.id it.1.name) acc

/-- `computeTotals` from `calc.ts`. -/
def computeTotals (state : BillState) : Totals :=
  let subtotal := (state.items.map (·.price)).sum
  let grandTotal := round2 (subtotal + state.overallTax)
  let itemTaxes := allocateItemTaxes state.items state.overallTax
  let init : Rec × List PersonTotal :=
    (state.people.foldl (fun m p => recSet m p.id 0) [],
     state.people.map (fun p => PersonTotal.mk p.id p.name 0 []))
  let acc := (state.items.zip itemTaxes).foldl stepItem init
  let perPersonRounded := acc.1.map (fun p => (p.1, round2 p.2))
  let personTotals := acc.2.map (fun pt =>
    { pt with total := (recGet perPersonRounded pt.id).getD 0 })
  ⟨acc.1, perPersonRounded, round2 subtotal, grandTotal, personTotals⟩

/-- `SplitwiseShare` from `types.ts`. -/
structure SplitwiseShare where
  name : String
  amount : ℚ
deriving DecidableEq

/-- `SplitwiseOutput` from `types.ts`. -/
structure SplitwiseOutput where
  shares : List SplitwiseShare
  grandTotal : ℚ
  payerName : String
deriving DecidableEq

/-- The reconciled per-person record used by `buildSplitwiseShares`. -/
def fixedTotals (state : BillState) : Rec :=
  pennyFix (computeTotals state).perPersonUnrounded (computeTotals state).grandTotal

/-- A person's reconciled amount, `fixedTotals[person.id]` (0 when absent,
matching `undefined > 0 = false` in the filter). -/
def fixedVal (state : BillState) (p : Person) : ℚ :=
  (recGet (fixedTotals state) p.id).getD 0

/-- The unsorted share list of `buildSplitwiseShares`: people with a strictly
positive reconciled amount, in original people order. -/
def sharesPre (state : BillState) : List SplitwiseShare :=
  (state.people.filter (fun p => 0 < fixedVal state p)).map
    (fun p => ⟨p.name, round2 (fixedVal state p)⟩)

/-- `buildSplitwiseShares` from `calc.ts`.  `payer?.name || "Unknown"` also
falls back on an empty display name (empty strings are falsy in JS). -/
def buildSplitwiseShares (state : BillState) : SplitwiseOutput :=
  let payerName :=
    match state.people.find? (fun p => p.id == state.payerId) with
    | none => "Unknown"
    | some p => if p.name = "" then "Unknown" else p.name
  ⟨sortDesc (·.amount) (sharesPre state), (computeTotals state).grandTotal,
   payerName⟩

/-- Two-digit decimal rendering of a nonnegative number of cents. -/
def fmt2 (n : ℕ) : String :=
  toString (n / 100) ++ "." ++ (if n % 100 < 10 then "0" else "") ++
    toString (n % 100)

/-- JavaScript `x.toFixed(2)` on exact rationals, per ECMA-262: strip the
sign, pick the integer n with n / 100 closest to the magnitude (larger n on
ties), render with two fraction digits. -/
def toFixed2 (x : ℚ) : String :=
  if x < 0 then "-" ++ fmt2 (jsRound (-x * 100)).toNat
  else fmt2 (jsRound (x * 100)).toNat

/-- `generateSplitwiseText` from `calc.ts`: seven fixed lines, then one line
pushed per share, joined with newlines. -/
def generateSplitwiseText (output : SplitwiseOutput) : String :=
  let lines : List String :=
    ["How to enter in Splitwise (Splitter)",
     "-----------------------------------",
     "Total: $" ++ toFixed2 output.grandTotal,
     "Paid by: " ++ output.payerName,
     "Split: Unequal shares (by amount)",
     "",
     "Shares:"]
  String.intercalate "\n"
    (output.shares.foldl
      (fun acc share => acc ++ [share.name ++ ": $" ++ toFixed2 share.amount])
      lines)

end Splitter

namespace Splitter

/-! Basic facts about `jsRound`, `round2` and `round4`. -/

theorem jsRound_intCast (k : ℤ) : jsRound (k : ℚ) = k := by
  unfold jsRound
  rw [Int.floor_eq_iff]
  constructor
  · linarith
  · norm_num

theorem round2_cents (k : ℤ) : round2 ((k : ℚ) / 100) = (k : ℚ) / 100 := by
  unfold round2
  rw [div_mul_cancel₀, jsRound_intCast]
  norm_num

theorem round4_tenthousandths (k : ℤ) :
    round4 ((k : ℚ) / 10000) = (k : ℚ) / 10000 := by
  unfold round4
  rw [div_mul_cancel₀, jsRound_intCast]
  norm_num

/-- `round2 x` is an integer number of cents. -/
theorem round2_eq_cents (x : ℚ) : ∃ k : ℤ, round2 x = (k : ℚ) / 100 :=
  ⟨jsRound (x * 100), rfl⟩

theorem round2_idem (x : ℚ) : round2 (round2 x) = round2 x := by
  obtain ⟨k, hk⟩ := round2_eq_cents x
  rw [hk, round2_cents]

theorem round4_idem (x : ℚ) : round4 (round4 x) = round4 x := by
  unfold round4
  rw [div_mul_cancel₀, jsRound_intCast]
  norm_num

theorem jsRound_sub_le (x : ℚ) : (jsRound x : ℚ) - x ≤ 1/2 := by
  have h := Int.floor_le (x + 1/2)
  unfold jsRound
  linarith

theorem lt_jsRound_sub (x : ℚ) : -(1/2) < (jsRound x : ℚ) - x := by
  have h := Int.lt_floor_add_one (x + 1/2)
  unfold jsRound
  linarith

/-- Half-toward-positive-infinity characterization of `round2`: the result is
a whole number of cents within `(-0.005, 0.005]` of the input. -/
theorem round2_err (x : ℚ) :
    -(1/200) < round2 x - x ∧ round2 x - x ≤ 1/200 := by
  unfold round2
  have h1 := jsRound_sub_le (x * 100)
  have h2 := lt_jsRound_sub (x * 100)
  constructor <;> [nlinarith; nlinarith]

theorem round4_err (x : ℚ) :
    -(1/20000) < round4 x - x ∧ round4 x - x ≤ 1/20000 := by
  unfold round4
  have h1 := jsRound_sub_le (x * 10000)
  have h2 := lt_jsRound_sub (x * 10000)
  constructor <;> [nlinarith; nlinarith]

/-- Subtracting a whole number of cents commutes with `round2`. -/
theorem round2_sub_cents (g : ℚ) (j : ℤ) :
    round2 (g - (j : ℚ) / 100) = round2 g - (j : ℚ) / 100 := by
  unfold round2 jsRound
  have : (g - (j : ℚ) / 100) * 100 + 1/2 = (g * 100 + 1/2) + (-j : ℤ) := by
    push_cast; ring
  rw [this, Int.floor_add_int]
  push_cast; ring

theorem cents_add (k j : ℤ) : (k : ℚ) / 100 + (j : ℚ) / 100 = ((k + j : ℤ) : ℚ) / 100 := by
  push_cast; ring

/-- Two cent amounts within less than a cent of each other are equal. -/
theorem cents_eq_of_abs_lt {j k : ℤ}
    (h : |(j : ℚ) / 100 - (k : ℚ) / 100| < 1/100) : j = k := by
  have h1 : |((j - k : ℤ) : ℚ)| < 1 := by
    push_cast
    rw [abs_lt] at h ⊢
    constructor <;> [linarith; linarith]
  have h2 : |j - k| < 1 := by exact_mod_cast h1
  rw [abs_lt] at h2
  omega

/-! Sums and shapes of `pennyFix`. -/

theorem sum_map_round2_cents (m : Rec) :
    ∃ j : ℤ, (m.map (fun p => round2 p.2)).sum = (j : ℚ) / 100 := by
  induction m with
  | nil => exact ⟨0, by simp⟩
  | cons p t ih =>
    obtain ⟨j, hj⟩ := ih
    refine ⟨jsRound (p.2 * 100) + j, ?_⟩
    simp only [List.map_cons, List.sum_cons, hj]
    rw [← cents_add, round2]

theorem disc_eq_pennies (m : Rec) (g : ℚ) :
    round2 (g - (m.map (fun p => round2 p.2)).sum)
      = (penniesNeeded m g : ℚ) / 100 := by
  unfold penniesNeeded
  rw [round2, div_mul_cancel₀ _ (by norm_num : (100 : ℚ) ≠ 0), jsRound_intCast]

/-- When the discrepancy is below a cent, `pennyFix` is the naive rounding. -/
theorem pennyFix_small (m : Rec) (g : ℚ)
    (h : |round2 (g - (m.map (fun p => round2 p.2)).sum)| < 1/100) :
    pennyFix m g = m.map (fun p => (p.1, round2 p.2)) := by
  unfold pennyFix
  rw [if_pos h]

/-- When the discrepancy is below a cent it is in fact zero: the naive
rounded sum already equals `round2 grandTotal`. -/
theorem small_disc_sum (m : Rec) (g : ℚ)
    (h : |round2 (g - (m.map (fun p => round2 p.2)).sum)| < 1/100) :
    (m.map (fun p => round2 p.2)).sum = round2 g := by
  obtain ⟨i, hi⟩ := sum_map_round2_cents m
  obtain ⟨k, hk⟩ := round2_eq_cents g
  rw [hi, round2_sub_cents, hk] at h
  rw [hi, hk, cents_eq_of_abs_lt h]

/-- On a cent amount the extra `round2` of the adjusted branch is a no-op,
so the branch assigns `round2 amount + pennyAdjustment` to adjusted people
and `round2 amount` to everyone else. -/
theorem pennyFix_large (m : Rec) (g : ℚ)
    (h : ¬ |round2 (g - (m.map (fun p => round2 p.2)).sum)| < 1/100) :
    pennyFix m g = m.map (fun p => (p.1,
      if p.1 ∈ adjustedIds m g then round2 p.2 + pennyAdj m g
      else round2 p.2)) := by
  unfold pennyFix
  rw [if_neg h]
  refine List.map_congr_left (fun p _ => ?_)
  by_cases hmem : p.1 ∈ adjustedIds m g
  · simp only [hmem, if_pos]
    obtain ⟨k, hk⟩ := round2_eq_cents p.2
    unfold pennyAdj
    by_cases hpos : 0 < penniesNeeded m g
    · rw [if_pos hpos, hk]
      have : (k : ℚ) / 100 + 1/100 = ((k + 1 : ℤ) : ℚ) / 100 := by push_cast; ring
      rw [this, round2_cents]
    · rw [if_neg hpos, hk]
      have : (k : ℚ) / 100 + -(1/100) = ((k - 1 : ℤ) : ℚ) / 100 := by push_cast; ring
      rw [this, round2_cents]
  · simp only [hmem, if_neg, ite_false]

theorem sortDesc_perm (key : α → ℚ) (l : List α) : (sortDesc key l).Perm l :=
  List.perm_insertionSort _ l

theorem fractionalData_map_personId (m : Rec) :
    (fractionalData m).map (·.personId) = m.map Prod.fst := by
  unfold fractionalData
  rw [List.map_map]
  rfl

theorem adjustedIds_eq_take (m : Rec) (g : ℚ) :
    adjustedIds m g = ((sortDesc (·.fractional) (fractionalData m)).map
      (·.personId)).take (penniesNeeded m g).natAbs := by
  unfold adjustedIds
  rw [List.map_take]

theorem adjustedIds_perm_keys (m : Rec) :
    ((sortDesc (·.fractional) (fractionalData m)).map (·.personId)).Perm
      (m.map Prod.fst) := by
  rw [← fractionalData_map_personId]
  exact (sortDesc_perm _ _).map _

theorem adjustedIds_nodup (m : Rec) (g : ℚ) (hnd : (m.map Prod.fst).Nodup) :
    (adjustedIds m g).Nodup := by
  rw [adjustedIds_eq_take]
  exact ((((adjustedIds_perm_keys m).nodup_iff).mpr hnd).sublist
    (List.take_sublist _ _))

theorem adjustedIds_subset (m : Rec) (g : ℚ) :
    ∀ x ∈ adjustedIds m g, x ∈ m.map Prod.fst := by
  intro x hx
  rw [adjustedIds_eq_take] at hx
  exact (adjustedIds_perm_keys m).mem_iff.mp
    ((List.take_sublist _ _).subset hx)

theorem adjustedIds_length (m : Rec) (g : ℚ)
    (hb : (penniesNeeded m g).natAbs ≤ m.length) :
    (adjustedIds m g).length = (penniesNeeded m g).natAbs := by
  rw [adjustedIds_eq_take, List.length_take]
  have hlen : ((sortDesc (·.fractional) (fractionalData m)).map
      (·.personId)).length = m.length := by
    rw [(adjustedIds_perm_keys m).length_eq, List.length_map]
  omega

/-- On a duplicate-free key list, counting the keys that lie in a
duplicate-free subset gives the size of the subset. -/
theorem countP_mem_of_nodup (K S : List String) (hK : K.Nodup) (hS : S.Nodup)
    (hsub : ∀ x ∈ S, x ∈ K) :
    K.countP (fun k => decide (k ∈ S)) = S.length := by
  rw [List.countP_eq_length_filter]
  have hperm : (K.filter (fun k => decide (k ∈ S))).Perm S := by
    rw [List.perm_ext_iff_of_nodup (hK.filter _) hS]
    intro a
    simp only [List.mem_filter, decide_eq_true_eq]
    exact ⟨fun h => h.2, fun h => ⟨hsub a h, h⟩⟩
  exact hperm.length_eq

theorem sum_map_ite_mem (m : Rec) (S : List String) (adj : ℚ) :
    (m.map (fun p => if p.1 ∈ S then round2 p.2 + adj else round2 p.2)).sum
      = (m.map (fun p => round2 p.2)).sum
        + adj * ((m.map Prod.fst).countP (fun k => decide (k ∈ S))) := by
  induction m with
  | nil => simp
  | cons p t ih =>
    simp only [List.map_cons, List.sum_cons, List.countP_cons, ih]
    by_cases hmem : p.1 ∈ S
    · simp only [hmem, if_pos, decide_eq_true_eq, if_true]
      push_cast
      ring
    · simp only [hmem, if_neg, if_false, ite_false, decide_eq_true_eq]
      push_cast
      ring

/-- The reconciliation invariant: whenever the penny discrepancy does not
exceed one cent per person, the `pennyFix` output sums to `round2 grandTotal`
exactly. -/
theorem pennyFix_sum (m : Rec) (g : ℚ) (hnd : (m.map Prod.fst).Nodup)
    (hb : (penniesNeeded m g).natAbs ≤ m.length) :
    ((pennyFix m g).map (fun p => p.2)).sum = round2 g := by
  by_cases hsmall : |round2 (g - (m.map (fun p => round2 p.2)).sum)| < 1/100
  · rw [pennyFix_small m g hsmall, List.map_map]
    exact small_disc_sum m g hsmall
  · rw [pennyFix_large m g hsmall, List.map_map]
    have hcomp : ((fun p => p.2) ∘ (fun p : String × ℚ => (p.1,
        if p.1 ∈ adjustedIds m g then round2 p.2 + pennyAdj m g
        else round2 p.2)))
        = fun p : String × ℚ =>
          if p.1 ∈ adjustedIds m g then round2 p.2 + pennyAdj m g
          else round2 p.2 := rfl
    rw [hcomp, sum_map_ite_mem, countP_mem_of_nodup _ _ hnd
      (adjustedIds_nodup m g hnd) (adjustedIds_subset m g),
      adjustedIds_length m g hb]
    obtain ⟨i, hi⟩ := sum_map_round2_cents m
    have hdisc := disc_eq_pennies m g
    set j := penniesNeeded m g with hj
    have hne : j ≠ 0 := by
      intro h0
      rw [h0] at hdisc
      rw [hdisc] at hsmall
      norm_num at hsmall
    have hadj : pennyAdj m g * (j.natAbs : ℚ) = (j : ℚ) / 100 := by
      unfold pennyAdj
      rw [← hj]
      by_cases hpos : 0 < j
      · rw [if_pos hpos]
        have : (j.natAbs : ℚ) = (j : ℚ) := by
          rw [Int.cast_natAbs]
          exact_mod_cast abs_of_pos hpos
        rw [this]; ring
      · rw [if_neg hpos]
        have : (j.natAbs : ℚ) = -(j : ℚ) := by
          rw [Int.cast_natAbs]
          exact_mod_cast abs_of_nonpos (not_lt.mp hpos)
        rw [this]; ring
    rw [hadj, hi]
    rw [hi, round2_sub_cents] at hdisc
    linarith

theorem natAbs_le_of_abs_disc_le {j : ℤ} {n : ℕ}
    (h : |(j : ℚ) / 100| ≤ (n : ℚ) / 100) : j.natAbs ≤ n := by
  rw [abs_div] at h
  have h100 : |(100 : ℚ)| = 100 := by norm_num
  rw [h100, div_le_div_iff_of_pos_right (by norm_num)] at h
  have : ((j.natAbs : ℤ) : ℚ) ≤ ((n : ℤ) : ℚ) := by
    rw [Int.cast_natAbs]
    push_cast
    exact h
  exact_mod_cast this

/-! `allocateItemTaxes` branch equations and the summed rounding error. -/

theorem allocate_zero_subtotal (items : List Item) (tax : ℚ)
    (h : (items.map (·.price)).sum = 0) :
    allocateItemTaxes items tax = items.map (fun _ => 0) := by
  unfold allocateItemTaxes
  by_cases hlen : items.length = 0
  · rw [if_pos hlen]
    rw [List.length_eq_zero] at hlen
    subst hlen
    rfl
  · rw [if_neg hlen]
    simp only [h, if_pos]

theorem allocate_nonzero_subtotal (items : List Item) (tax : ℚ)
    (h : (items.map (·.price)).sum ≠ 0) :
    allocateItemTaxes items tax = items.map (fun it =>
      round4 (tax * (it.price / (items.map (·.price)).sum))) := by
  unfold allocateItemTaxes
  by_cases hlen : items.length = 0
  · rw [if_pos hlen]
    rw [List.length_eq_zero] at hlen
    subst hlen
    rfl
  · rw [if_neg hlen]
    simp only [h, if_neg, ite_false]

theorem sum_map_div (l : List ℚ) (s : ℚ) :
    (l.map (fun x => x / s)).sum = l.sum / s := by
  induction l with
  | nil => simp
  | cons x t ih => simp [ih, add_div]

theorem sum_map_mul_const (l : List α) (c : ℚ) (f : α → ℚ) :
    (l.map (fun x => c * f x)).sum = c * (l.map f).sum := by
  induction l with
  | nil => simp
  | cons x t ih => simp [ih, mul_add]

theorem abs_round4_sub_le (x : ℚ) : |round4 x - x| ≤ 1/20000 :=
  abs_le.mpr ⟨by linarith [(round4_err x).1], (round4_err x).2⟩

theorem sum_map_round4_err (l : List ℚ) :
    |(l.map round4).sum - l.sum| ≤ (l.length : ℚ) / 20000 := by
  induction l with
  | nil => simp
  | cons x t ih =>
    simp only [List.map_cons, List.sum_cons, List.length_cons]
    have htri : |round4 x + (t.map round4).sum - (x + t.sum)|
        ≤ |round4 x - x| + |(t.map round4).sum - t.sum| := by
      have : round4 x + (t.map round4).sum - (x + t.sum)
          = (round4 x - x) + ((t.map round4).sum - t.sum) := by ring
      rw [this]
      exact abs_add _ _
    have hx := abs_round4_sub_le x
    have hcast : ((t.length + 1 : ℕ) : ℚ) = (t.length : ℚ) + 1 := by push_cast; ring
    rw [hcast]
    calc |round4 x + (t.map round4).sum - (x + t.sum)|
        ≤ |round4 x - x| + |(t.map round4).sum - t.sum| := htri
      _ ≤ 1/20000 + (t.length : ℚ) / 20000 := by linarith
      _ = ((t.length : ℚ) + 1) / 20000 := by ring

/-- The exact (pre-rounding) allocations sum to the whole tax. -/
theorem sum_exact_alloc (items : List Item) (tax : ℚ)
    (h : (items.map (·.price)).sum ≠ 0) :
    (items.map (fun it =>
      tax * (it.price / (items.map (·.price)).sum))).sum = tax := by
  set s := (items.map (·.price)).sum with hs
  have h1 : (items.map (fun it => tax * (it.price / s))).sum
      = tax * ((items.map (fun it => it.price / s)).sum) := by
    rw [← sum_map_mul_const items tax (fun it => it.price / s)]
  have h2 : (items.map (fun it => it.price / s)).sum
      = ((items.map (·.price)).map (fun x => x / s)).sum := by
    rw [List.map_map]
    rfl
  rw [h1, h2, sum_map_div, ← hs, div_self h, mul_one]

/-! Record lookup/assignment laws and the `computeTotals` fold invariants. -/

theorem recGet_cons (a : String × ℚ) (t : Rec) (k : String) :
    recGet (a :: t) k = if a.1 = k then some a.2 else recGet t k := by
  unfold recGet
  by_cases h : a.1 = k
  · rw [List.find?_cons_of_pos _ (by simp [h]), if_pos h]
    rfl
  · rw [List.find?_cons_of_neg _ (by simp [h]), if_neg h]

theorem recGet_recSet_self (m : Rec) (k : String) (v : ℚ) :
    recGet (recSet m k v) k = some v := by
  induction m with
  | nil => simp [recGet, recSet]
  | cons p t ih =>
    obtain ⟨k0, v0⟩ := p
    by_cases h : k0 = k
    · simp [recSet, h, recGet_cons]
    · simp [recSet, h, recGet_cons, ih]

theorem recGet_recSet_ne (m : Rec) (k k' : String) (v : ℚ) (h : k ≠ k') :
    recGet (recSet m k v) k' = recGet m k' := by
  induction m with
  | nil => simp [recGet, recSet, beq_eq_false_iff_ne.mpr h]
  | cons p t ih =>
    obtain ⟨k0, v0⟩ := p
    by_cases h0 : k0 = k
    · subst h0
      simp [recSet, recGet_cons, h]
    · simp [recSet, h0, recGet_cons, ih]

theorem recGet_map_round2 (m : Rec) (k : String) :
    recGet (m.map (fun p => (p.1, round2 p.2))) k
      = (recGet m k).map round2 := by
  induction m with
  | nil => simp [recGet]
  | cons p t ih =>
    by_cases h : p.1 = k
    · simp [recGet_cons, h]
    · simp [recGet_cons, h, ih]

theorem round2_zero : round2 0 = 0 := by norm_num [round2, jsRound]

/-- The people-initialization fold leaves every listed person at 0 (and
preserves existing zeros). -/
theorem foldl_init_get (people : List Person) (m : Rec) (k : String)
    (h : (∃ q ∈ people, q.id = k) ∨ recGet m k = some 0) :
    recGet (people.foldl (fun m q => recSet m q.id 0) m) k = some 0 := by
  induction people generalizing m with
  | nil =>
    rcases h with ⟨q, hq, _⟩ | h0
    · exact absurd hq (List.not_mem_nil q)
    · exact h0
  | cons q t ih =>
    rw [List.foldl_cons]
    apply ih
    rcases h with ⟨r, hr, hid⟩ | h0
    · rcases List.mem_cons.mp hr with rfl | hrt
      · right
        rw [← hid]
        exact recGet_recSet_self m r.id 0
      · exact Or.inl ⟨r, hrt, hid⟩
    · right
      by_cases hqk : q.id = k
      · rw [← hqk]
        exact recGet_recSet_self m q.id 0
      · rw [recGet_recSet_ne m q.id k 0 hqk]
        exact h0

/-- A consumer fold never touches the record entry of an id that is not
among the consumers. -/
theorem foldl_stepConsumer_get (cids : List String) (share : ℚ)
    (itemId itemName : String) (acc : Rec × List PersonTotal) (k : String)
    (h : k ∉ cids) :
    recGet (cids.foldl (stepConsumer share itemId itemName) acc).1 k
      = recGet acc.1 k := by
  induction cids generalizing acc with
  | nil => rfl
  | cons c t ih =>
    rw [List.foldl_cons]
    have hck : c ≠ k := fun hc => h (hc ▸ List.mem_cons_self c t)
    rw [ih _ (fun hk => h (List.mem_cons_of_mem c hk))]
    exact recGet_recSet_ne acc.1 c k _ hck

/-- An item fold never touches the record entry of a non-consumer. -/
theorem foldl_stepItem_get (its : List (Item × ℚ))
    (acc : Rec × List PersonTotal) (k : String)
    (h : ∀ itp ∈ its, k ∉ itp.1.consumerIds) :
    recGet (its.foldl stepItem acc).1 k = recGet acc.1 k := by
  induction its generalizing acc with
  | nil => rfl
  | cons itp t ih =>
    rw [List.foldl_cons, ih _ (fun x hx => h x (List.mem_cons_of_mem itp hx))]
    exact foldl_stepConsumer_get _ _ _ _ acc k (h itp (List.mem_cons_self itp t))

/-- A person who consumes nothing keeps an unrounded total of `some 0`. -/
theorem computeTotals_unrounded_zero (s : BillState) (p : Person)
    (hp : p ∈ s.people) (hni : ∀ it ∈ s.items, p.id ∉ it.consumerIds) :
    recGet (computeTotals s).perPersonUnrounded p.id = some 0 := by
  unfold computeTotals
  dsimp only
  rw [foldl_stepItem_get _ _ _ (fun itp hitp =>
    hni itp.1 (List.of_mem_zip hitp).1)]
  exact foldl_init_get s.people [] p.id (Or.inl ⟨p, hp, rfl⟩)

/-- A person who consumes nothing also has a rounded total of `some 0`. -/
theorem computeTotals_rounded_zero (s : BillState) (p : Person)
    (hp : p ∈ s.people) (hni : ∀ it ∈ s.items, p.id ∉ it.consumerIds) :
    recGet (computeTotals s).perPersonRounded p.id = some 0 := by
  have h1 := computeTotals_unrounded_zero s p hp hni
  have h2 : (computeTotals s).perPersonRounded
      = (computeTotals s).perPersonUnrounded.map (fun q => (q.1, round2 q.2)) := rfl
  rw [h2, recGet_map_round2, h1]
  simp [round2_zero]

/-- The final `personTotals` are the accumulated breakdowns with each
`total` field set from the rounded record. -/
theorem computeTotals_personTotals_eq (s : BillState) :
    (computeTotals s).personTotals
      = ((s.items.zip (allocateItemTaxes s.items s.overallTax)).foldl stepItem
          (s.people.foldl (fun m p => recSet m p.id 0) [],
           s.people.map (fun p => PersonTotal.mk p.id p.name 0 []))).2.map
        (fun pt => { pt with total :=
          (recGet (computeTotals s).perPersonRounded pt.id).getD 0 }) := rfl

/-- A person who consumes nothing has `total = 0` in every matching
`personTotals` entry. -/
theorem computeTotals_personTotal_zero (s : BillState) (p : Person)
    (hp : p ∈ s.people) (hni : ∀ it ∈ s.items, p.id ∉ it.consumerIds) :
    ∀ pt ∈ (computeTotals s).personTotals, pt.id = p.id → pt.total = 0 := by
  intro pt hpt hid
  rw [computeTotals_personTotals_eq] at hpt
  rcases List.mem_map.mp hpt with ⟨pt0, _, rfl⟩
  have hid0 : pt0.id = p.id := hid
  show (recGet (computeTotals s).perPersonRounded pt0.id).getD 0 = 0
  rw [hid0, computeTotals_rounded_zero s p hp hni]
  rfl

/-! Key lists through the folds, for relating `fixedTotals` entries to the
people list. -/

theorem recSet_keys_of_mem (m : Rec) (k : String) (v : ℚ)
    (h : k ∈ m.map Prod.fst) :
    (recSet m k v).map Prod.fst = m.map Prod.fst := by
  induction m with
  | nil => simp at h
  | cons p t ih =>
    by_cases h0 : p.1 = k
    · simp [recSet, h0]
    · have hk : k ∈ t.map Prod.fst := by
        rcases List.mem_cons.mp h with h1 | h1
        · exact absurd h1.symm h0
        · exact h1
      simp [recSet, h0, ih hk]

theorem recSet_keys_of_not_mem (m : Rec) (k : String) (v : ℚ)
    (h : k ∉ m.map Prod.fst) :
    (recSet m k v).map Prod.fst = m.map Prod.fst ++ [k] := by
  induction m with
  | nil => simp [recSet]
  | cons p t ih =>
    have h0 : p.1 ≠ k := fun hc => h (by simp [hc])
    have ht : k ∉ t.map Prod.fst := fun hc => h (by simp [hc])
    simp [recSet, h0, ih ht]

theorem foldl_init_keys (people : List Person) (m : Rec)
    (hnd : (people.map (·.id)).Nodup)
    (hdisj : ∀ p ∈ people, p.id ∉ m.map Prod.fst) :
    (people.foldl (fun m q => recSet m q.id 0) m).map Prod.fst
      = m.map Prod.fst ++ people.map (·.id) := by
  induction people generalizing m with
  | nil => simp
  | cons p t ih =>
    rw [List.foldl_cons]
    have hpm : p.id ∉ m.map Prod.fst := hdisj p (List.mem_cons_self p t)
    have hkeys := recSet_keys_of_not_mem m p.id 0 hpm
    rw [ih (recSet m p.id 0) (List.nodup_cons.mp (by simpa using hnd)).2
      (fun q hq => by
        rw [hkeys]
        intro hc
        rcases List.mem_append.mp hc with h1 | h1
        · exact hdisj q (List.mem_cons_of_mem p hq) h1
        · have hqp : q.id = p.id := by simpa using h1
          have : p.id ∉ t.map (·.id) := (List.nodup_cons.mp (by simpa using hnd)).1
          exact this (hqp ▸ List.mem_map_of_mem (·.id) hq)),
      hkeys]
    simp

theorem foldl_stepConsumer_keys (cids : List String) (share : ℚ)
    (itemId itemName : String) (acc : Rec × List PersonTotal)
    (h : ∀ c ∈ cids, c ∈ acc.1.map Prod.fst) :
    (cids.foldl (stepConsumer share itemId itemName) acc).1.map Prod.fst
      = acc.1.map Prod.fst := by
  induction cids generalizing acc with
  | nil => rfl
  | cons c t ih =>
    rw [List.foldl_cons]
    have hc : c ∈ acc.1.map Prod.fst := h c (List.mem_cons_self c t)
    have hkeys : (stepConsumer share itemId itemName acc c).1.map Prod.fst
        = acc.1.map Prod.fst := recSet_keys_of_mem acc.1 c _ hc
    rw [ih _ (fun x hx => by
      rw [hkeys]
      exact h x (List.mem_cons_of_mem c hx)), hkeys]

theorem foldl_stepItem_keys (its : List (Item × ℚ))
    (acc : Rec × List PersonTotal)
    (h : ∀ itp ∈ its, ∀ c ∈ itp.1.consumerIds, c ∈ acc.1.map Prod.fst) :
    (its.foldl stepItem acc).1.map Prod.fst = acc.1.map Prod.fst := by
  induction its generalizing acc with
  | nil => rfl
  | cons itp t ih =>
    rw [List.foldl_cons]
    have hkeys : (stepItem acc itp).1.map Prod.fst = acc.1.map Prod.fst :=
      foldl_stepConsumer_keys _ _ _ _ acc
        (h itp (List.mem_cons_self itp t))
    rw [ih _ (fun x hx c hc => by
      rw [hkeys]
      exact h x (List.mem_cons_of_mem itp hx) c hc), hkeys]

/-- Under the BillState structural invariants the unrounded record has
exactly the people's ids as keys, in order. -/
theorem computeTotals_keys (s : BillState)
    (hnd : (s.people.map (·.id)).Nodup)
    (hres : ∀ it ∈ s.items, ∀ c ∈ it.consumerIds, c ∈ s.people.map (·.id)) :
    (computeTotals s).perPersonUnrounded.map Prod.fst = s.people.map (·.id) := by
  have hinit : (s.people.foldl (fun m q => recSet m q.id 0) []).map Prod.fst
      = s.people.map (·.id) := by
    have := foldl_init_keys s.people [] hnd (by simp)
    simpa using this
  have : (computeTotals s).perPersonUnrounded
      = ((s.items.zip (allocateItemTaxes s.items s.overallTax)).foldl stepItem
          (s.people.foldl (fun m q => recSet m q.id 0) [],
           s.people.map (fun p => PersonTotal.mk p.id p.name 0 []))).1 := rfl
  rw [this, foldl_stepItem_keys _ _ (fun itp hitp c hc => by
    rw [hinit]
    exact hres itp.1 (List.of_mem_zip hitp).1 c hc), hinit]

/-- `pennyFix` preserves the key list. -/
theorem pennyFix_keys (m : Rec) (g : ℚ) :
    (pennyFix m g).map Prod.fst = m.map Prod.fst := by
  unfold pennyFix
  by_cases h : |round2 (g - (m.map (fun p => round2 p.2)).sum)| < 1/100
  · rw [if_pos h, List.map_map]
    rfl
  · rw [if_neg h, List.map_map]
    rfl

/-- Every `pennyFix` output value is a whole number of cents. -/
theorem pennyFix_val_cents (m : Rec) (g : ℚ) :
    ∀ q ∈ pennyFix m g, ∃ k : ℤ, q.2 = (k : ℚ) / 100 := by
  intro q hq
  unfold pennyFix at hq
  by_cases h : |round2 (g - (m.map (fun p => round2 p.2)).sum)| < 1/100
  · rw [if_pos h] at hq
    rcases List.mem_map.mp hq with ⟨p, _, rfl⟩
    exact round2_eq_cents p.2
  · rw [if_neg h] at hq
    rcases List.mem_map.mp hq with ⟨p, _, rfl⟩
    show ∃ k : ℤ, (if p.1 ∈ adjustedIds m g then
      round2 (round2 p.2 + pennyAdj m g) else round2 p.2) = (k : ℚ) / 100
    by_cases hmem : p.1 ∈ adjustedIds m g
    · rw [if_pos hmem]
      exact round2_eq_cents _
    · rw [if_neg hmem]
      exact round2_eq_cents p.2

theorem recGet_some_mem (m : Rec) (k : String) (v : ℚ)
    (h : recGet m k = some v) : ∃ q ∈ m, q.2 = v := by
  unfold recGet at h
  cases hfind : m.find? (fun q => q.1 == k) with
  | none => rw [hfind] at h; simp at h
  | some q =>
    rw [hfind] at h
    simp at h
    exact ⟨q, List.mem_of_find?_eq_some hfind, h⟩

/-- `round2` fixes every reconciled per-person value. -/
theorem round2_fixedVal (s : BillState) (p : Person) :
    round2 (fixedVal s p) = fixedVal s p := by
  unfold fixedVal
  cases hget : recGet (fixedTotals s) p.id with
  | none => simp [round2_zero]
  | some v =>
    obtain ⟨q, hq, hv⟩ := recGet_some_mem _ _ _ hget
    obtain ⟨k, hk⟩ := pennyFix_val_cents _ _ q hq
    simp only [Option.getD_some]
    rw [← hv, hk, round2_cents]

theorem fixedVal_nonneg (s : BillState)
    (hpos : ∀ q ∈ fixedTotals s, 0 ≤ q.2) (p : Person) :
    0 ≤ fixedVal s p := by
  unfold fixedVal
  cases hget : recGet (fixedTotals s) p.id with
  | none => simp
  | some v =>
    obtain ⟨q, hq, hv⟩ := recGet_some_mem _ _ _ hget
    simpa [← hv] using hpos q hq

/-- Dropping the non-positive entries (which are all zero when every entry
is nonnegative) does not change the sum. -/
theorem sum_filter_pos (ps : List Person) (f : Person → ℚ)
    (h : ∀ p ∈ ps, 0 ≤ f p) :
    ((ps.filter (fun p => 0 < f p)).map f).sum = (ps.map f).sum := by
  induction ps with
  | nil => simp
  | cons p t ih =>
    have h0 := h p (List.mem_cons_self p t)
    have ht : ∀ r ∈ t, 0 ≤ f r := fun r hr => h r (List.mem_cons_of_mem p hr)
    by_cases hp : 0 < f p
    · simp [List.filter_cons, hp, ih ht]
    · have hz : f p = 0 := le_antisymm (not_lt.mp hp) h0
      simp [List.filter_cons, hp, ih ht, hz]

/-- Looking every person up in a record keyed exactly by the (duplicate-free)
people ids and summing gives the sum of the record's values. -/
theorem sum_recGet_eq_sum (ps : List Person) (m : Rec)
    (hkeys : m.map Prod.fst = ps.map (·.id))
    (hnd : (ps.map (·.id)).Nodup) :
    (ps.map (fun p => (recGet m p.id).getD 0)).sum
      = (m.map (fun q => q.2)).sum := by
  induction ps generalizing m with
  | nil =>
    cases m with
    | nil => simp
    | cons q t => simp at hkeys
  | cons p t ih =>
    cases m with
    | nil => simp at hkeys
    | cons q m2 =>
      simp only [List.map_cons, List.cons.injEq] at hkeys
      obtain ⟨h1, h2⟩ := hkeys
      have hnd2 : (∀ x ∈ t, ¬x.id = p.id) ∧ (t.map (·.id)).Nodup := by
        simpa using hnd
      simp only [List.map_cons, List.sum_cons]
      have hhead : recGet (q :: m2) p.id = some q.2 := by
        rw [recGet_cons, if_pos h1]
      have htail : t.map (fun r => (recGet (q :: m2) r.id).getD 0)
          = t.map (fun r => (recGet m2 r.id).getD 0) :=
        List.map_congr_left (fun r hr => by
          rw [recGet_cons, if_neg (by
            rw [h1]
            intro hc
            exact hnd2.1 r hr hc.symm)])
      rw [hhead, htail, ih m2 h2 hnd2.2]
      rfl

theorem buildShares_shares (s : BillState) :
    (buildSplitwiseShares s).shares = sortDesc (·.amount) (sharesPre s) := rfl

theorem grandTotal_round2 (s : BillState) :
    round2 (computeTotals s).grandTotal = (computeTotals s).grandTotal := by
  have h : (computeTotals s).grandTotal
      = round2 ((s.items.map (·.price)).sum + s.overallTax) := rfl
  rw [h, round2_idem]

/-- The sum of the pre-sort share amounts is the sum of everyone's
reconciled value, once every reconciled value is nonnegative. -/
theorem sharesPre_amount_sum (s : BillState)
    (hpos : ∀ q ∈ fixedTotals s, 0 ≤ q.2) :
    ((sharesPre s).map (·.amount)).sum
      = (s.people.map (fun p => fixedVal s p)).sum := by
  unfold sharesPre
  rw [List.map_map]
  have hcomp : ((fun sh : SplitwiseShare => sh.amount) ∘
      (fun p : Person => SplitwiseShare.mk p.name (round2 (fixedVal s p))))
      = fun p : Person => round2 (fixedVal s p) := rfl
  rw [hcomp]
  have h1 : (s.people.filter (fun p => 0 < fixedVal s p)).map
      (fun p => round2 (fixedVal s p))
      = (s.people.filter (fun p => 0 < fixedVal s p)).map
        (fun p => fixedVal s p) :=
    List.map_congr_left (fun p _ => round2_fixedVal s p)
  rw [h1, sum_filter_pos _ _ (fun p _ => fixedVal_nonneg s hpos p)]

/-- Pushing each mapped element onto an accumulator is appending the map. -/
theorem foldl_push_eq_append_map (l : List β) (acc : List α) (f : β → α) :
    l.foldl (fun a x => a ++ [f x]) acc = acc ++ l.map f := by
  induction l generalizing acc with
  | nil => simp
  | cons x t ih => simp [ih]

end Splitter

namespace Splitter

/-! The claim theorems. -/

/-- C1 (amended): for every per-person record with distinct keys and every
grandTotal, *provided the penny discrepancy is at most one cent per person*,
the sum over all people of the amounts returned by
`pennyFix(perPersonUnrounded, grandTotal)` equals `round2 grandTotal`
exactly.  (Unrestricted, the claim fails: with more discrepancy pennies than
people the loop runs out of people to adjust.) -/
theorem C1_pennyFix_sum_amended (m : Rec) (g : ℚ)
    (hnd : (m.map Prod.fst).Nodup)
    (hb : |round2 (g - (m.map (fun p => round2 p.2)).sum)|
      ≤ (m.length : ℚ) / 100) :
    ((pennyFix m g).map (fun p => p.2)).sum = round2 g := by
  apply pennyFix_sum m g hnd
  rw [disc_eq_pennies] at hb
  exact natAbs_le_of_abs_disc_le hb

/-- Witness for C1: a concrete two-person instance satisfying the
hypotheses. -/
theorem C1_pennyFix_sum_witness :
    ((pennyFix [("p1", 1/2), ("p2", 1/4)] (3/4)).map (fun p => p.2)).sum
      = round2 (3/4) :=
  C1_pennyFix_sum_amended [("p1", 1/2), ("p2", 1/4)] (3/4)
    (by decide)
    (by norm_num [round2, jsRound])

/-- Counterexample to C1 as stated: a single person with unrounded total 1
against grandTotal 5 (400 discrepancy pennies, one person); the output sums
to 1.01, not 5. -/
theorem C1_sum_counterexample :
    ((pennyFix [("p1", 1)] 5).map (fun p => p.2)).sum ≠ round2 5 := by
  norm_num [pennyFix, round2, jsRound, adjustedIds, penniesNeeded, pennyAdj,
    fractionalData, sortDesc, List.insertionSort, List.orderedInsert,
    abs_of_nonneg, abs_of_nonpos]

/-- C2: when the discrepancy reaches a cent, `pennyFix` ranks people by
descending fractional remainder `|amount - floor(amount*100)/100|` with a
stable sort (the sorted list is a permutation, is sorted descending, and any
pair already in weakly descending order — in particular any tie — keeps its
original relative order), gives the `|round(discrepancy*100)|`
highest-remainder people their rounded amount plus the ±0.01 adjustment, and
every other person their naive `round2` value; on
{p1: 10.334, p2: 10.333, p3: 10.333} with grandTotal 31.00 it returns
{p1: 10.34, p2: 10.33, p3: 10.33}. -/
theorem C2_pennyFix_ranking :
    (∀ l : List FracEntry,
      (sortDesc (·.fractional) l).Perm l ∧
      (sortDesc (·.fractional) l).Pairwise
        (fun a b => b.fractional ≤ a.fractional) ∧
      (∀ a b : FracEntry, [a, b].Sublist l →
        b.fractional ≤ a.fractional →
        [a, b].Sublist (sortDesc (·.fractional) l))) ∧
    (∀ (m : Rec) (g : ℚ),
      ¬ |round2 (g - (m.map (fun p => round2 p.2)).sum)| < 1/100 →
      pennyFix m g = m.map (fun p => (p.1,
        if p.1 ∈ adjustedIds m g then round2 p.2 + pennyAdj m g
        else round2 p.2))) ∧
    pennyFix [("p1", 10334/1000), ("p2", 10333/1000), ("p3", 10333/1000)] 31
      = [("p1", 1034/100), ("p2", 1033/100), ("p3", 1033/100)] := by
  refine ⟨fun l => ⟨sortDesc_perm _ l, ?_, fun a b hsub hle => ?_⟩,
    pennyFix_large, ?_⟩
  · haveI : IsTotal FracEntry (fun a b => b.fractional ≤ a.fractional) :=
      ⟨fun a b => le_total _ _⟩
    haveI : IsTrans FracEntry (fun a b => b.fractional ≤ a.fractional) :=
      ⟨fun _ _ _ hab hbc => le_trans hbc hab⟩
    exact List.sorted_insertionSort _ l
  · exact List.pair_sublist_insertionSort hle hsub
  · norm_num [pennyFix, round2, jsRound, adjustedIds, penniesNeeded, pennyAdj,
      fractionalData, sortDesc, List.insertionSort, List.orderedInsert,
      abs_of_nonneg, abs_of_nonpos]
    decide

/-- Witness for C2: the branch equation applied at a concrete record with a
large discrepancy, and stability applied at a concrete ordered pair. -/
theorem C2_pennyFix_ranking_witness :
    (pennyFix [("p1", 1)] 5 = [("p1", 1)].map (fun p => (p.1,
      if p.1 ∈ adjustedIds [("p1", 1)] 5 then
        round2 p.2 + pennyAdj [("p1", 1)] 5
      else round2 p.2))) ∧
    [FracEntry.mk "a" 1 1 (3/1000), FracEntry.mk "b" 2 2 (1/1000)].Sublist
      (sortDesc (·.fractional)
        [FracEntry.mk "a" 1 1 (3/1000), FracEntry.mk "b" 2 2 (1/1000)]) :=
  ⟨C2_pennyFix_ranking.2.1 [("p1", 1)] 5
      (by norm_num [round2, jsRound, abs_of_nonneg]),
   (C2_pennyFix_ranking.1 _).2.2 _ _ (List.Sublist.refl _) (by norm_num)⟩

/-- C3 (amended): `round2` rounds to the nearest cent with halves toward
*positive infinity* (not away from zero) on the value scaled by 100: the
result is a whole number of cents within `(-0.005, 0.005]` of the input;
1.235 → 1.24, 0.005 → 0.01, 0.004 → 0.00, but (in exact arithmetic)
-1.235 → -1.23 and -0.005 → 0.00. -/
theorem C3_round2_amended :
    (∀ x : ℚ, (∃ k : ℤ, round2 x = (k : ℚ) / 100) ∧
      -(1/200) < round2 x - x ∧ round2 x - x ≤ 1/200) ∧
    round2 (1235/1000) = 124/100 ∧ round2 (1/200) = 1/100 ∧
    round2 (1/250) = 0 ∧ round2 (-(1235/1000)) = -(123/100) ∧
    round2 (-(1/200)) = 0 := by
  refine ⟨fun x => ⟨round2_eq_cents x, (round2_err x).1, (round2_err x).2⟩,
    ?_, ?_, ?_, ?_, ?_⟩ <;> norm_num [round2, jsRound]

/-- Counterexample to C3 as stated (round half away from zero): at -0.005
the code yields 0.00 where half-away-from-zero demands -0.01, and at -1.235
it yields -1.23, not the claimed -1.24 (exact arithmetic). -/
theorem C3_round2_counterexample :
    round2 (-(1/200)) ≠ -(1/100) ∧ round2 (-(1235/1000)) ≠ -(124/100) := by
  constructor <;> norm_num [round2, jsRound]

/-- C5: `allocateItemTaxes` is positionally aligned with the input items;
with zero subtotal every allocated tax is 0 (including the single
zero-priced item with tax 5 scenario), otherwise each item's tax is
`round4(overallTax * itemPrice / subtotal)`. -/
theorem C5_allocate_shape : ∀ (items : List Item) (tax : ℚ),
    ((items.map (·.price)).sum = 0 →
      allocateItemTaxes items tax = items.map (fun _ => 0)) ∧
    ((items.map (·.price)).sum ≠ 0 →
      allocateItemTaxes items tax = items.map (fun it =>
        round4 (tax * (it.price / (items.map (·.price)).sum)))) ∧
    allocateItemTaxes [⟨"1", "Free Item", 0, ["p1"]⟩] 5 = [0] := by
  intro items tax
  exact ⟨allocate_zero_subtotal items tax, allocate_nonzero_subtotal items tax,
    by norm_num [allocateItemTaxes]⟩

/-- Witness for C5: both branches applied at concrete inputs. -/
theorem C5_allocate_shape_witness :
    (allocateItemTaxes [⟨"a", "Zero", 0, ["p1"]⟩] 3
      = [Item.mk "a" "Zero" 0 ["p1"]].map (fun _ => 0)) ∧
    (allocateItemTaxes [⟨"b", "Paid", 2, ["p1"]⟩] 3
      = [Item.mk "b" "Paid" 2 ["p1"]].map (fun it =>
          round4 (3 * (it.price /
            ([Item.mk "b" "Paid" 2 ["p1"]].map (·.price)).sum)))) :=
  ⟨(C5_allocate_shape [⟨"a", "Zero", 0, ["p1"]⟩] 3).1 (by norm_num),
   (C5_allocate_shape [⟨"b", "Paid", 2, ["p1"]⟩] 3).2.1 (by norm_num)⟩

/-- C4 (amended): for items with nonzero subtotal, the sum of
`allocateItemTaxes(items, overallTax)` differs from `overallTax` by at most
0.00005 per item — hence by at most 0.01 whenever there are at most 200
items.  (Unrestricted, the 0.01 bound fails: each item's 4-decimal rounding
can contribute up to 0.00005 of error.) -/
theorem C4_tax_sum_amended (items : List Item) (tax : ℚ)
    (h : (items.map (·.price)).sum ≠ 0) :
    |(allocateItemTaxes items tax).sum - tax| ≤ (items.length : ℚ) / 20000 ∧
    (items.length ≤ 200 → |(allocateItemTaxes items tax).sum - tax| ≤ 1/100) := by
  have hmain : |(allocateItemTaxes items tax).sum - tax|
      ≤ (items.length : ℚ) / 20000 := by
    rw [allocate_nonzero_subtotal items tax h]
    have hcomp : items.map (fun it =>
        round4 (tax * (it.price / (items.map (·.price)).sum)))
        = (items.map (fun it =>
            tax * (it.price / (items.map (·.price)).sum))).map round4 := by
      rw [List.map_map]
      rfl
    rw [hcomp]
    have herr := sum_map_round4_err (items.map (fun it =>
      tax * (it.price / (items.map (·.price)).sum)))
    rw [sum_exact_alloc items tax h, List.length_map] at herr
    exact herr
  refine ⟨hmain, fun hn => le_trans hmain ?_⟩
  have : (items.length : ℚ) ≤ 200 := by exact_mod_cast hn
  linarith

/-- Witness for C4: a concrete single-item instance. -/
theorem C4_tax_sum_witness :
    (|(allocateItemTaxes [⟨"b", "Paid", 2, ["p1"]⟩] 3).sum - 3|
      ≤ (([Item.mk "b" "Paid" 2 ["p1"]].length : ℕ) : ℚ) / 20000) ∧
    ([Item.mk "b" "Paid" 2 ["p1"]].length ≤ 200 →
      |(allocateItemTaxes [⟨"b", "Paid", 2, ["p1"]⟩] 3).sum - 3| ≤ 1/100) :=
  C4_tax_sum_amended [⟨"b", "Paid", 2, ["p1"]⟩] 3 (by norm_num)

/-- Counterexample to C4 as stated: 201 items of price 1 with overall tax
0.01005; every per-item allocation 0.00005 rounds up to 0.0001, so the
allocations sum to 0.0201, off by 0.01005 > 0.01. -/
theorem C4_tax_sum_counterexample :
    ¬ |(allocateItemTaxes (List.replicate 201 ⟨"i", "x", 1, ["p"]⟩)
        (201/20000)).sum - 201/20000| ≤ 1/100 := by
  have hsub : ((List.replicate 201 (Item.mk "i" "x" 1 ["p"])).map
      (·.price)).sum = 201 := by
    rw [List.map_replicate, List.sum_replicate]
    norm_num
  rw [allocate_nonzero_subtotal _ _ (by rw [hsub]; norm_num), hsub,
    List.map_replicate, List.sum_replicate]
  norm_num [round4, jsRound, abs_of_nonneg]

/-- C7 (amended): for every BillState the shares list is a permutation of
exactly the people with strictly positive penny-reconciled final share (in
original order), stably sorted by amount descending.  Additionally, under the
structural invariants (distinct person ids, resolving consumer ids) and
provided the penny discrepancy is at most one cent per person and every
reconciled total is nonnegative, the share amounts sum to the grand total
exactly (so certainly within 0.001).  (Unrestricted, the sum part fails: an
item with no consumers inflates the grand total that nobody pays.) -/
theorem C7_shares_amended :
    (∀ s : BillState, (buildSplitwiseShares s).shares.Pairwise
      (fun a b => b.amount ≤ a.amount)) ∧
    (∀ s : BillState, (buildSplitwiseShares s).shares.Perm (sharesPre s)) ∧
    (∀ (s : BillState) (a b : SplitwiseShare), [a, b].Sublist (sharesPre s) →
      b.amount ≤ a.amount → [a, b].Sublist (buildSplitwiseShares s).shares) ∧
    (∀ s : BillState,
      (s.people.map (·.id)).Nodup →
      (∀ it ∈ s.items, ∀ c ∈ it.consumerIds, c ∈ s.people.map (·.id)) →
      |round2 ((computeTotals s).grandTotal
        - ((computeTotals s).perPersonUnrounded.map (fun p => round2 p.2)).sum)|
        ≤ (((computeTotals s).perPersonUnrounded.length : ℕ) : ℚ) / 100 →
      (∀ q ∈ fixedTotals s, 0 ≤ q.2) →
      ((buildSplitwiseShares s).shares.map (·.amount)).sum
        = (computeTotals s).grandTotal) := by
  refine ⟨fun s => ?_, fun s => ?_, fun s a b hsub hle => ?_,
    fun s hnd hres hb hpos => ?_⟩
  · rw [buildShares_shares]
    haveI : IsTotal SplitwiseShare (fun a b => b.amount ≤ a.amount) :=
      ⟨fun a b => le_total _ _⟩
    haveI : IsTrans SplitwiseShare (fun a b => b.amount ≤ a.amount) :=
      ⟨fun _ _ _ hab hbc => le_trans hbc hab⟩
    exact List.sorted_insertionSort _ _
  · rw [buildShares_shares]
    exact sortDesc_perm _ _
  · rw [buildShares_shares]
    exact List.pair_sublist_insertionSort hle hsub
  · rw [buildShares_shares,
      ((sortDesc_perm (·.amount) (sharesPre s)).map (·.amount)).sum_eq,
      sharesPre_amount_sum s hpos]
    have hfix : (fun p : Person => fixedVal s p)
        = fun p : Person => (recGet (fixedTotals s) p.id).getD 0 := rfl
    have hkeys : (fixedTotals s).map Prod.fst = s.people.map (·.id) :=
      (pennyFix_keys _ _).trans (computeTotals_keys s hnd hres)
    rw [hfix, sum_recGet_eq_sum s.people (fixedTotals s) hkeys hnd]
    have hnd2 : ((computeTotals s).perPersonUnrounded.map Prod.fst).Nodup := by
      rw [computeTotals_keys s hnd hres]
      exact hnd
    have hb2 := hb
    rw [disc_eq_pennies] at hb2
    have hps := pennyFix_sum (computeTotals s).perPersonUnrounded
      (computeTotals s).grandTotal hnd2 (natAbs_le_of_abs_disc_le hb2)
    have hft : (fixedTotals s).map (fun q => q.2)
        = (pennyFix (computeTotals s).perPersonUnrounded
            (computeTotals s).grandTotal).map (fun p => p.2) := rfl
    rw [hft, hps, grandTotal_round2]

/-- Witness for C7: the sum part applied at a one-person state. -/
theorem C7_shares_witness :
    ((buildSplitwiseShares ⟨[⟨"p1", "Alice", false⟩],
        "p1", [⟨"i1", "Rice", 10, ["p1"]⟩], 0⟩).shares.map
        (·.amount)).sum
      = (computeTotals ⟨[⟨"p1", "Alice", false⟩],
        "p1", [⟨"i1", "Rice", 10, ["p1"]⟩], 0⟩).grandTotal := by
  apply C7_shares_amended.2.2.2 _ (by decide) (by decide)
  · norm_num [computeTotals, allocateItemTaxes, stepItem, stepConsumer,
      recGet, recSet, addBreakdown, round2, round4, jsRound,
      abs_of_nonneg, abs_of_nonpos]
  · intro q hq
    norm_num [fixedTotals, computeTotals, allocateItemTaxes, stepItem,
      stepConsumer, recGet, recSet, addBreakdown, pennyFix, round2, round4,
      jsRound, adjustedIds, penniesNeeded, pennyAdj, fractionalData,
      sortDesc, List.insertionSort, List.orderedInsert,
      abs_of_nonneg, abs_of_nonpos] at hq
    simp [hq]

/-- Counterexample to C7 as stated: one person and one item with no
consumers (price 10); the grand total is 10 but the only share is the
spuriously adjusted 0.01, so the sum misses the grand total by 9.99. -/
theorem C7_shares_counterexample :
    ¬ |(((buildSplitwiseShares ⟨[⟨"p1", "Alice", false⟩], "p1",
        [⟨"i1", "Ghost", 10, []⟩], 0⟩).shares.map (·.amount)).sum
      - (buildSplitwiseShares ⟨[⟨"p1", "Alice", false⟩], "p1",
        [⟨"i1", "Ghost", 10, []⟩], 0⟩).grandTotal)| ≤ 1/1000 := by
  norm_num [buildSplitwiseShares, sharesPre, fixedVal, fixedTotals,
    computeTotals, allocateItemTaxes, stepItem, stepConsumer, recGet, recSet,
    addBreakdown, pennyFix, round2, jsRound, adjustedIds, penniesNeeded,
    pennyAdj, fractionalData, sortDesc, List.insertionSort,
    List.orderedInsert, abs_of_nonneg, abs_of_nonpos]

/-- C8: `round2` and `round4` are idempotent on every (finite) input. -/
theorem C8_round_idempotent :
    ∀ x : ℚ, round2 (round2 x) = round2 x ∧ round4 (round4 x) = round4 x :=
  fun x => ⟨round2_idem x, round4_idem x⟩

/-- C6: `computeTotals` is total over every (well-formed or not) BillState —
in the embedding it is a pure function with explicit degenerate branches: an
item with zero consumers leaves the accumulators untouched (its division is
never observed), a person who consumes no item keeps unrounded and rounded
totals of 0 and `total = 0` in their breakdown entry, an empty item list
yields subtotal 0 and grandTotal `round2 tax`, and a zero subtotal yields
all-zero item taxes instead of a division by zero. -/
theorem C6_computeTotals_degenerate :
    (∀ (acc : Rec × List PersonTotal) (it : Item × ℚ),
      it.1.consumerIds = [] → stepItem acc it = acc) ∧
    (∀ (s : BillState) (p : Person), p ∈ s.people →
      (∀ it ∈ s.items, p.id ∉ it.consumerIds) →
      recGet (computeTotals s).perPersonUnrounded p.id = some 0 ∧
      recGet (computeTotals s).perPersonRounded p.id = some 0 ∧
      ∀ pt ∈ (computeTotals s).personTotals, pt.id = p.id → pt.total = 0) ∧
    (∀ (people : List Person) (payerId : String) (tax : ℚ),
      (computeTotals ⟨people, payerId, [], tax⟩).subtotal = 0 ∧
      (computeTotals ⟨people, payerId, [], tax⟩).grandTotal = round2 tax) ∧
    (∀ (items : List Item) (tax : ℚ), (items.map (·.price)).sum = 0 →
      allocateItemTaxes items tax = items.map (fun _ => 0)) := by
  refine ⟨fun acc it h => ?_, fun s p hp hni =>
    ⟨computeTotals_unrounded_zero s p hp hni,
     computeTotals_rounded_zero s p hp hni,
     computeTotals_personTotal_zero s p hp hni⟩,
    fun people payerId tax => ⟨?_, ?_⟩, allocate_zero_subtotal⟩
  · simp only [stepItem, h, List.foldl_nil]
  · show round2 (([] : List Item).map (·.price)).sum = 0
    simp [round2_zero]
  · show round2 ((([] : List Item).map (·.price)).sum + tax) = round2 tax
    rw [List.map_nil, List.sum_nil, zero_add]

/-- Witness for C6: the degenerate branches applied at concrete inputs. -/
theorem C6_computeTotals_degenerate_witness :
    (stepItem ([("p1", 0)], []) (Item.mk "i" "x" 5 [], 0)
      = (([("p1", 0)] : Rec), ([] : List PersonTotal))) ∧
    (recGet (computeTotals ⟨[⟨"p1", "A", false⟩, ⟨"p2", "B", false⟩], "p1",
        [⟨"i1", "I", 10, ["p1"]⟩], 0⟩).perPersonUnrounded
        (Person.mk "p2" "B" false).id = some 0 ∧
     recGet (computeTotals ⟨[⟨"p1", "A", false⟩, ⟨"p2", "B", false⟩], "p1",
        [⟨"i1", "I", 10, ["p1"]⟩], 0⟩).perPersonRounded
        (Person.mk "p2" "B" false).id = some 0 ∧
     ∀ pt ∈ (computeTotals ⟨[⟨"p1", "A", false⟩, ⟨"p2", "B", false⟩], "p1",
        [⟨"i1", "I", 10, ["p1"]⟩], 0⟩).personTotals,
       pt.id = (Person.mk "p2" "B" false).id → pt.total = 0) ∧
    allocateItemTaxes [⟨"a", "b", 0, []⟩] 3
      = [Item.mk "a" "b" 0 []].map (fun _ => 0) :=
  ⟨C6_computeTotals_degenerate.1 ([("p1", 0)], []) (Item.mk "i" "x" 5 [], 0) rfl,
   C6_computeTotals_degenerate.2.1
     ⟨[⟨"p1", "A", false⟩, ⟨"p2", "B", false⟩], "p1",
      [⟨"i1", "I", 10, ["p1"]⟩], 0⟩ ⟨"p2", "B", false⟩
     (by decide) (by decide),
   C6_computeTotals_degenerate.2.2.2 [⟨"a", "b", 0, []⟩] 3 (by norm_num)⟩

/-- C9: for every `SplitwiseOutput`, the generated text is exactly the
newline-join of the header line, a divider, the "Total: $X.XX" line at two
decimals, the "Paid by: name" line, the fixed instructional line, a blank
line, the "Shares:" line, and one "name: $X.XX" line per share in the
shares list's order. -/
theorem C9_text_format : ∀ output : SplitwiseOutput,
    generateSplitwiseText output = String.intercalate "\n"
      (["How to enter in Splitwise (Splitter)",
        "-----------------------------------",
        "Total: $" ++ toFixed2 output.grandTotal,
        "Paid by: " ++ output.payerName,
        "Split: Unequal shares (by amount)",
        "",
        "Shares:"] ++
       output.shares.map (fun sh => sh.name ++ ": $" ++ toFixed2 sh.amount)) := by
  intro output
  unfold generateSplitwiseText
  dsimp only
  rw [foldl_push_eq_append_map]

end Splitter

